import Mathlib

/-!
Verification of the `Screen` trait of `erust-lcd` (`src/screen.rs`).

The Rust trait
```
pub trait Screen<const WIDTH: usize, const HEIGHT: usize, Error> {
    fn send_command(&mut self, command: u8) -> Result<(), Error>;
    fn send_data(&mut self, data: u8) -> Result<(), Error>;
    ...
}
```
is embedded shallowly: a backend is a record of the two primitive
operations, each taking the current backend state and a byte and
returning the new state together with a `Result<(), Error>` value
(`Except ε Unit`).  The derived default methods `send_commands`,
`send_data_bytes`, `cls` and `write` are translated from the source,
statement for statement.  To speak about which primitives a derived
operation invokes, a backend is instrumented with `traced`, which
appends an `Event` to a log at every primitive invocation (whether the
invocation succeeds or fails) and otherwise behaves exactly as the
underlying backend.
-/

namespace ErustLcd

/-- A display backend: the two primitive operations supplied by the
implementor of the `Screen` trait.  `&mut self` plus `Result<(), Error>`
becomes explicit state passing returning the new state and the result. -/
structure Backend (σ ε : Type) where
  send_command : σ → Nat → σ × Except ε Unit
  send_data : σ → Nat → σ × Except ε Unit

/-- Modelled from the spec: the external command-table collaborator
`hd44780::clear_screen()` is not part of `src/`; the spec treats it as an
opaque constant lookup supplying "the numeric command byte meaning clear
display" (0x01 on HD44780-family controllers). -/
def clear_screen : Nat := 1

/-- `Screen::send_commands`: `for command in commands { self.send_command(*command)?; } Ok(())`. -/
def send_commands {σ ε : Type} (B : Backend σ ε) : σ → List Nat → σ × Except ε Unit
  | s, [] => (s, Except.ok ())
  | s, c :: cs =>
    match B.send_command s c with
    | (s1, Except.ok _) => send_commands B s1 cs
    | (s1, Except.error e) => (s1, Except.error e)

/-- `Screen::send_data_bytes`: `for byte in data { self.send_data(*byte)?; } Ok(())`. -/
def send_data_bytes {σ ε : Type} (B : Backend σ ε) : σ → List Nat → σ × Except ε Unit
  | s, [] => (s, Except.ok ())
  | s, d :: ds =>
    match B.send_data s d with
    | (s1, Except.ok _) => send_data_bytes B s1 ds
    | (s1, Except.error e) => (s1, Except.error e)

/-- `Screen::cls`: `self.send_command(hd44780::clear_screen())`. -/
def cls {σ ε : Type} (B : Backend σ ε) (s : σ) : σ × Except ε Unit :=
  B.send_command s clear_screen

/-- The accumulator step of the fold in `Screen::write`:
`|i, c| { string_buf[i] = c as u8; i + 1 }`.  The Rust array
`[u8; WIDTH]` is embedded as a length-`WIDTH` list; the indexed store
becomes `List.set` (which, like a bounds-checked store, leaves the list
unchanged when the index is out of range — `write` never reaches that
case, see the in-bounds theorem). -/
def writeStep : List Nat × Nat → Char → List Nat × Nat :=
  fun q c => (q.1.set q.2 (c.toNat % 256), q.2 + 1)

/-- `Screen::write`: builds `string_buf = [0; WIDTH]`, folds the first
`WIDTH` characters of `s` (multibyte characters replaced by `'?'`) into
the buffer, and sends `&string_buf[..len]` via `send_data_bytes`.
Rust `char` is a Unicode scalar value, as is Lean `Char`; `c as u32` is
`c.toNat` and `c as u8` is `c.toNat % 256`. -/
def write {σ ε : Type} (B : Backend σ ε) (WIDTH : Nat) (s : σ) (str : List Char) :
    σ × Except ε Unit :=
  let string_buf : List Nat := List.replicate WIDTH 0
  let r := ((str.take WIDTH).map (fun c => if c.toNat < 256 then c else '?')).foldl
      writeStep (string_buf, 0)
  send_data_bytes B s (r.1.take r.2)

/-- Instrumentation of `writeStep` that additionally records whether
every indexed store performed so far was within the buffer bounds. -/
def writeStepChecked : (List Nat × Nat) × Bool → Char → (List Nat × Nat) × Bool :=
  fun q c => (writeStep q.1 c, q.2 && decide (q.1.2 < q.1.1.length))

/-- The oversized test string of the repository's `write` test. -/
def longTest : List Char :=
  "this is very long test string that should be truncated by screen size".toList

/-- A primitive invocation: a command byte or a data byte handed to the
backend. -/
inductive Event where
  | command : Nat → Event
  | data : Nat → Event
deriving DecidableEq

/-- Instrument a backend with an invocation log: every call of a
primitive appends the corresponding event (whether the call succeeds or
fails) and otherwise defers to the underlying backend. -/
def traced {σ ε : Type} (B : Backend σ ε) : Backend (σ × List Event) ε where
  send_command := fun p b =>
    ((( B.send_command p.1 b).1, p.2 ++ [Event.command b]), (B.send_command p.1 b).2)
  send_data := fun p b =>
    ((( B.send_data p.1 b).1, p.2 ++ [Event.data b]), (B.send_data p.1 b).2)

/-- A backend none of whose primitive operations ever fails. -/
def NonFailing {σ ε : Type} (B : Backend σ ε) : Prop :=
  ∀ s b, (B.send_command s b).2 = Except.ok () ∧ (B.send_data s b).2 = Except.ok ()

/-- The data bytes `write` hands to `send_data_bytes`: the first `WIDTH`
characters with the Latin-1 substitution applied (proved below to be
what `write` sends). -/
def lineBytes (WIDTH : Nat) (str : List Char) : List Nat :=
  (str.take WIDTH).map (fun c => if c.toNat < 256 then c.toNat else 63)

/-- A trivial backend whose primitives always succeed and keep no state;
used to instantiate the universally quantified theorems. -/
def okBackend : Backend Unit Unit :=
  ⟨fun s _ => (s, Except.ok ()), fun s _ => (s, Except.ok ())⟩

/-- A backend that fails on command byte 7 and on data byte 120, used to
instantiate the error-propagation theorems. -/
def failBackend : Backend Unit Unit :=
  ⟨fun s b => (s, if b = 7 then Except.error () else Except.ok ()),
   fun s b => (s, if b = 120 then Except.error () else Except.ok ())⟩

section Lemmas

variable {σ ε : Type}

/-- Characterization of the buffer-filling fold of `write`: starting
from index `i` with enough room, it writes the bytes of the characters
consecutively and returns the index advanced by the number of
characters. -/
theorem foldl_writeStep_eq (l : List Char) :
    ∀ (buf : List Nat) (i : Nat), i + l.length ≤ buf.length →
      l.foldl writeStep (buf, i) =
        (buf.take i ++ l.map (fun c => c.toNat % 256) ++ buf.drop (i + l.length),
         i + l.length) := by
  induction l with
  | nil =>
    intro buf i h
    simp [List.take_append_drop]
  | cons c cs ih =>
    intro buf i h
    have hi : i < buf.length := by
      have := h
      simp only [List.length_cons] at this
      omega
    have hlen : (buf.set i (c.toNat % 256)).length = buf.length := List.length_set ..
    have hroom : (i + 1) + cs.length ≤ (buf.set i (c.toNat % 256)).length := by
      rw [hlen]; simp only [List.length_cons] at h; omega
    have hset := List.set_eq_take_cons_drop (c.toNat % 256) hi
    calc (c :: cs).foldl writeStep (buf, i)
        = cs.foldl writeStep (buf.set i (c.toNat % 256), i + 1) := rfl
      _ = ((buf.set i (c.toNat % 256)).take (i + 1)
            ++ cs.map (fun c => c.toNat % 256)
            ++ (buf.set i (c.toNat % 256)).drop ((i + 1) + cs.length),
           (i + 1) + cs.length) := ih _ _ hroom
      _ = (buf.take i ++ (c :: cs).map (fun c => c.toNat % 256)
            ++ buf.drop (i + (c :: cs).length), i + (c :: cs).length) := by
          rw [hset]
          have htk : (buf.take i ++ c.toNat % 256 :: buf.drop (i + 1)).take (i + 1)
              = buf.take i ++ [c.toNat % 256] := by
            have h1 : (buf.take i).length = i := by
              simp [List.length_take]; omega
            rw [show i + 1 = (buf.take i).length + 1 by rw [h1]]
            rw [List.take_append]
            simp
          have hdp : (buf.take i ++ c.toNat % 256 :: buf.drop (i + 1)).drop ((i + 1) + cs.length)
              = buf.drop (i + (cs.length + 1)) := by
            have h1 : (buf.take i ++ [c.toNat % 256]).length = i + 1 := by
              simp [List.length_take]; omega
            have : buf.take i ++ c.toNat % 256 :: buf.drop (i + 1)
                = (buf.take i ++ [c.toNat % 256]) ++ buf.drop (i + 1) := by simp
            rw [this, show (i + 1) + cs.length = (buf.take i ++ [c.toNat % 256]).length + cs.length
                  by rw [h1]]
            rw [List.drop_append]
            rw [List.drop_drop]
            congr 1
            omega
          rw [htk, hdp]
          simp only [Prod.mk.injEq, List.map_cons, List.length_cons, List.append_assoc,
            List.singleton_append, List.cons_append]
          exact ⟨rfl, by omega⟩

/-- `write` equals `send_data_bytes` applied to the Latin-1 line bytes. -/
theorem write_eq_send_data_bytes (B : Backend σ ε) (WIDTH : Nat) (s : σ) (str : List Char) :
    write B WIDTH s str = send_data_bytes B s (lineBytes WIDTH str) := by
  simp only [write]
  set l := (str.take WIDTH).map (fun c => if c.toNat < 256 then c else '?') with hl
  have hroom : 0 + l.length ≤ (List.replicate WIDTH 0 : List Nat).length := by
    simp [hl, List.length_take]
  rw [foldl_writeStep_eq l _ 0 hroom]
  have hmap : l.map (fun c => c.toNat % 256) = lineBytes WIDTH str := by
    rw [hl, lineBytes, List.map_map]
    apply List.map_congr_left
    intro c _
    by_cases hc : c.toNat < 256
    · simp [hc, Nat.mod_eq_of_lt hc]
    · simp [hc]
  simp only [List.take_zero, List.nil_append, Nat.zero_add]
  have hlen : (l.map (fun c => c.toNat % 256)).length = l.length := List.length_map ..
  rw [List.take_left' hlen, hmap]

/-- On a non-failing backend, `send_commands` over the traced backend
succeeds, reaches the same backend state as the untraced run, and logs
exactly one command event per byte, in order. -/
theorem send_commands_traced_ok (B : Backend σ ε) (hB : NonFailing B) :
    ∀ (C : List Nat) (s : σ) (tr : List Event),
      send_commands (traced B) (s, tr) C =
        (((send_commands B s C).1, tr ++ C.map Event.command), Except.ok ()) := by
  intro C
  induction C with
  | nil => intro s tr; simp [send_commands]
  | cons c cs ih =>
    intro s tr
    have hc := (hB s c).1
    rcases hsc : B.send_command s c with ⟨s1, r⟩
    have hr : r = Except.ok () := by rw [hsc] at hc; exact hc
    subst hr
    have hstep : (traced B).send_command (s, tr) c = ((s1, tr ++ [Event.command c]), Except.ok ()) := by
      simp [traced, hsc]
    simp only [send_commands, hstep]
    rw [ih]
    simp [send_commands, hsc]

/-- On a non-failing backend, `send_data_bytes` over the traced backend
succeeds, reaches the same backend state as the untraced run, and logs
exactly one data event per byte, in order. -/
theorem send_data_bytes_traced_ok (B : Backend σ ε) (hB : NonFailing B) :
    ∀ (D : List Nat) (s : σ) (tr : List Event),
      send_data_bytes (traced B) (s, tr) D =
        (((send_data_bytes B s D).1, tr ++ D.map Event.data), Except.ok ()) := by
  intro D
  induction D with
  | nil => intro s tr; simp [send_data_bytes]
  | cons d ds ih =>
    intro s tr
    have hd := (hB s d).2
    rcases hsd : B.send_data s d with ⟨s1, r⟩
    have hr : r = Except.ok () := by rw [hsd] at hd; exact hd
    subst hr
    have hstep : (traced B).send_data (s, tr) d = ((s1, tr ++ [Event.data d]), Except.ok ()) := by
      simp [traced, hsd]
    simp only [send_data_bytes, hstep]
    rw [ih]
    simp [send_data_bytes, hsd]

/-- Running the traced `send_commands` through a prefix that the
untraced backend accepts continues, from the state after the prefix,
with the prefix's command events appended to the log. -/
theorem send_commands_traced_front (B : Backend σ ε) :
    ∀ (pre : List Nat) (s s1 : σ), send_commands B s pre = (s1, Except.ok ()) →
      ∀ (tr : List Event) (rest : List Nat),
        send_commands (traced B) (s, tr) (pre ++ rest) =
          send_commands (traced B) (s1, tr ++ pre.map Event.command) rest := by
  intro pre
  induction pre with
  | nil =>
    intro s s1 h tr rest
    have hs : s = s1 := congrArg Prod.fst h
    subst hs
    simp
  | cons c cs ih =>
    intro s s1 h tr rest
    rcases hsc : B.send_command s c with ⟨sa, ra⟩
    cases ra with
    | ok u =>
      cases u
      have h' : send_commands B sa cs = (s1, Except.ok ()) := by
        simpa [send_commands, hsc] using h
      have hstep : (traced B).send_command (s, tr) c =
          ((sa, tr ++ [Event.command c]), Except.ok ()) := by
        simp [traced, hsc]
      simp only [List.cons_append, send_commands, hstep]
      simp only [List.append_eq]
      rw [ih sa s1 h']
      simp
    | error e =>
      have hcomp : send_commands B s (c :: cs) = (sa, Except.error e) := by
        simp [send_commands, hsc]
      rw [h] at hcomp
      simp at hcomp

/-- Running the traced `send_data_bytes` through a prefix that the
untraced backend accepts continues, from the state after the prefix,
with the prefix's data events appended to the log. -/
theorem send_data_bytes_traced_front (B : Backend σ ε) :
    ∀ (pre : List Nat) (s s1 : σ), send_data_bytes B s pre = (s1, Except.ok ()) →
      ∀ (tr : List Event) (rest : List Nat),
        send_data_bytes (traced B) (s, tr) (pre ++ rest) =
          send_data_bytes (traced B) (s1, tr ++ pre.map Event.data) rest := by
  intro pre
  induction pre with
  | nil =>
    intro s s1 h tr rest
    have hs : s = s1 := congrArg Prod.fst h
    subst hs
    simp
  | cons d ds ih =>
    intro s s1 h tr rest
    rcases hsd : B.send_data s d with ⟨sa, ra⟩
    cases ra with
    | ok u =>
      cases u
      have h' : send_data_bytes B sa ds = (s1, Except.ok ()) := by
        simpa [send_data_bytes, hsd] using h
      have hstep : (traced B).send_data (s, tr) d =
          ((sa, tr ++ [Event.data d]), Except.ok ()) := by
        simp [traced, hsd]
      simp only [List.cons_append, send_data_bytes, hstep]
      simp only [List.append_eq]
      rw [ih sa s1 h']
      simp
    | error e =>
      have hcomp : send_data_bytes B s (d :: ds) = (sa, Except.error e) := by
        simp [send_data_bytes, hsd]
      rw [h] at hcomp
      simp at hcomp

/-- A failing first byte stops the traced `send_commands` run: the
failing invocation is logged, the rest of the batch is not attempted,
and the error is returned as is. -/
theorem send_commands_traced_fail_step (B : Backend σ ε) (s1 s2 : σ) (b : Nat) (e : ε)
    (h : B.send_command s1 b = (s2, Except.error e)) (tr : List Event) (post : List Nat) :
    send_commands (traced B) (s1, tr) (b :: post) =
      ((s2, tr ++ [Event.command b]), Except.error e) := by
  have hstep : (traced B).send_command (s1, tr) b =
      ((s2, tr ++ [Event.command b]), Except.error e) := by
    simp [traced, h]
  simp only [send_commands, hstep]

/-- A failing first byte stops the traced `send_data_bytes` run: the
failing invocation is logged, the rest of the batch is not attempted,
and the error is returned as is. -/
theorem send_data_bytes_traced_fail_step (B : Backend σ ε) (s1 s2 : σ) (b : Nat) (e : ε)
    (h : B.send_data s1 b = (s2, Except.error e)) (tr : List Event) (post : List Nat) :
    send_data_bytes (traced B) (s1, tr) (b :: post) =
      ((s2, tr ++ [Event.data b]), Except.error e) := by
  have hstep : (traced B).send_data (s1, tr) b =
      ((s2, tr ++ [Event.data b]), Except.error e) := by
    simp [traced, h]
  simp only [send_data_bytes, hstep]

/-- While there is room in the buffer, every store of the buffer-filling
fold of `write` is in bounds. -/
theorem foldl_writeStepChecked_ok (l : List Char) :
    ∀ (buf : List Nat) (i : Nat), i + l.length ≤ buf.length →
      (l.foldl writeStepChecked ((buf, i), true)).2 = true := by
  induction l with
  | nil => intro buf i _; rfl
  | cons c cs ih =>
    intro buf i h
    have hi : i < buf.length := by
      simp only [List.length_cons] at h; omega
    have hfirst : writeStepChecked ((buf, i), true) c =
        ((buf.set i (c.toNat % 256), i + 1), true) := by
      simp [writeStepChecked, writeStep, hi]
    have hroom : (i + 1) + cs.length ≤ (buf.set i (c.toNat % 256)).length := by
      rw [List.length_set]
      simp only [List.length_cons] at h; omega
    calc ((c :: cs).foldl writeStepChecked ((buf, i), true)).2
        = (cs.foldl writeStepChecked (writeStepChecked ((buf, i), true) c)).2 := rfl
      _ = (cs.foldl writeStepChecked ((buf.set i (c.toNat % 256), i + 1), true)).2 := by
          rw [hfirst]
      _ = true := ih _ _ hroom

end Lemmas

/-- C5: for every sequence of command bytes `C`, `send_commands C` on a
non-failing backend invokes `send_command` exactly once per byte of `C`,
in the order of `C`, with exactly the bytes of `C`, and never invokes
`send_data`: the invocation log of the run is exactly the command events
of `C`, and the run succeeds. -/
theorem send_commands_sends_in_order {σ ε : Type} (B : Backend σ ε) (C : List Nat) (s : σ)
    (hB : NonFailing B) :
    (send_commands (traced B) (s, []) C).1.2 = C.map Event.command ∧
    (send_commands (traced B) (s, []) C).2 = Except.ok () := by
  rw [send_commands_traced_ok B hB C s []]
  simp

theorem send_commands_sends_in_order_witness :
    NonFailing okBackend ∧
    ((send_commands (traced okBackend) ((), []) [1, 2, 3]).1.2 = [1, 2, 3].map Event.command ∧
     (send_commands (traced okBackend) ((), []) [1, 2, 3]).2 = Except.ok ()) :=
  ⟨fun _ _ => ⟨rfl, rfl⟩,
   send_commands_sends_in_order okBackend [1, 2, 3] () (fun _ _ => ⟨rfl, rfl⟩)⟩

/-- C6: for every sequence of data bytes `D`, `send_data_bytes D` on a
non-failing backend invokes `send_data` exactly once per byte of `D`, in
strict input order, with exactly the bytes of `D`, and never invokes
`send_command`: the invocation log of the run is exactly the data events
of `D`, and the run succeeds. -/
theorem send_data_bytes_sends_in_order {σ ε : Type} (B : Backend σ ε) (D : List Nat) (s : σ)
    (hB : NonFailing B) :
    (send_data_bytes (traced B) (s, []) D).1.2 = D.map Event.data ∧
    (send_data_bytes (traced B) (s, []) D).2 = Except.ok () := by
  rw [send_data_bytes_traced_ok B hB D s []]
  simp

theorem send_data_bytes_sends_in_order_witness :
    NonFailing okBackend ∧
    ((send_data_bytes (traced okBackend) ((), []) [10, 20, 30]).1.2 = [10, 20, 30].map Event.data ∧
     (send_data_bytes (traced okBackend) ((), []) [10, 20, 30]).2 = Except.ok ()) :=
  ⟨fun _ _ => ⟨rfl, rfl⟩,
   send_data_bytes_sends_in_order okBackend [10, 20, 30] () (fun _ _ => ⟨rfl, rfl⟩)⟩

/-- C7: `cls` invokes `send_command` exactly once, with the clear-display
constant, invokes `send_data` zero times (the invocation log is the
single command event), and returns the result of that single send. -/
theorem cls_sends_single_clear_command {σ ε : Type} (B : Backend σ ε) (s : σ) :
    cls (traced B) (s, []) =
      (((B.send_command s clear_screen).1, [Event.command clear_screen]),
       (B.send_command s clear_screen).2) := rfl

/-- C8: when `WIDTH = 0`, `write` invokes no primitive at all and
returns success on every backend, while `cls` still logs the single
clear-display command. -/
theorem width_zero_write_noop_cls_still_clears {σ ε : Type} (B : Backend σ ε) (s : σ)
    (str : List Char) :
    write (traced B) 0 (s, []) str = ((s, []), Except.ok ()) ∧
    (cls (traced B) (s, [])).1.2 = [Event.command clear_screen] := by
  constructor
  · rw [write_eq_send_data_bytes]
    simp [lineBytes, send_data_bytes]
  · rfl

/-- C10: on every backend, even one whose primitives always fail,
`send_commands []` and `send_data_bytes []` return success; on the
traced backend the invocation log stays empty, so no primitive operation
is invoked at all. -/
theorem empty_batch_success_no_invocation {σ ε : Type} (B : Backend σ ε) (s : σ) :
    send_commands B s [] = (s, Except.ok ()) ∧
    send_data_bytes B s [] = (s, Except.ok ()) ∧
    send_commands (traced B) (s, []) [] = ((s, []), Except.ok ()) ∧
    send_data_bytes (traced B) (s, []) [] = ((s, []), Except.ok ()) :=
  ⟨rfl, rfl, rfl, rfl⟩

/-- C1: for every input string longer than `WIDTH` characters, `write`
on a non-failing backend succeeds, its invocation log consists of data
events only — the first `WIDTH` characters with the Latin-1
substitution applied, in order — and there are exactly `WIDTH` of them
(so no command is ever sent). -/
theorem write_truncates_long_input {σ ε : Type} (B : Backend σ ε) (W : Nat) (s : σ)
    (str : List Char) (hB : NonFailing B) (hlen : W < str.length) :
    (write (traced B) W (s, []) str).2 = Except.ok () ∧
    (write (traced B) W (s, []) str).1.2 =
      ((str.take W).map (fun c => if c.toNat < 256 then c.toNat else 63)).map Event.data ∧
    ((str.take W).map (fun c => if c.toNat < 256 then c.toNat else 63)).length = W := by
  rw [write_eq_send_data_bytes, send_data_bytes_traced_ok B hB (lineBytes W str) s []]
  refine ⟨rfl, ?_, ?_⟩
  · simp [lineBytes]
  · simp only [List.length_map, List.length_take]
    omega

theorem write_truncates_long_input_witness :
    NonFailing okBackend ∧ 16 < longTest.length ∧
    ((write (traced okBackend) 16 ((), []) longTest).2 = Except.ok () ∧
     (write (traced okBackend) 16 ((), []) longTest).1.2 =
       ((longTest.take 16).map (fun c => if c.toNat < 256 then c.toNat else 63)).map Event.data ∧
     ((longTest.take 16).map (fun c => if c.toNat < 256 then c.toNat else 63)).length = 16) ∧
    (write (traced okBackend) 16 ((), []) longTest).1.2 =
      "this is very lon".toList.map (fun c => Event.data c.toNat) :=
  ⟨fun _ _ => ⟨rfl, rfl⟩, by decide,
   write_truncates_long_input okBackend 16 () longTest (fun _ _ => ⟨rfl, rfl⟩) (by decide),
   by decide⟩

/-- C3: among the characters `write` transmits, a character with code
point at least 256 is sent as the data byte 0x3F (63, `?`), and a
character with code point below 256 is sent as its own code point. -/
theorem write_latin1_substitution {σ ε : Type} (B : Backend σ ε) (W : Nat) (s : σ)
    (str : List Char) (i : Nat) (hB : NonFailing B) (hi : i < min W str.length) :
    ((write (traced B) W (s, []) str).1.2).getD i (Event.command 0) =
      Event.data (if (str.getD i ' ').toNat < 256 then (str.getD i ' ').toNat else 63) := by
  rw [write_eq_send_data_bytes, send_data_bytes_traced_ok B hB (lineBytes W str) s []]
  have h1 : i < str.length := by omega
  have h2 : i < W := by omega
  have h4 : i < ((lineBytes W str).map Event.data).length := by
    simp [lineBytes]; omega
  simp only [List.nil_append, List.getD_eq_getElem?_getD, List.getElem?_eq_getElem h4,
    List.getElem?_eq_getElem h1, Option.getD_some]
  simp [lineBytes, List.getElem_take]

theorem write_latin1_substitution_witness :
    NonFailing okBackend ∧ (2 : Nat) < min 16 (['a', 'é', '€'] : List Char).length ∧
    ((write (traced okBackend) 16 ((), []) ['a', 'é', '€']).1.2).getD 2 (Event.command 0) =
      Event.data (if ((['a', 'é', '€'] : List Char).getD 2 ' ').toNat < 256
        then ((['a', 'é', '€'] : List Char).getD 2 ' ').toNat else 63) ∧
    ((write (traced okBackend) 16 ((), []) ['a', 'é', '€']).1.2).getD 2 (Event.command 0) =
      Event.data 63 :=
  ⟨fun _ _ => ⟨rfl, rfl⟩, by decide,
   write_latin1_substitution okBackend 16 () ['a', 'é', '€'] 2 (fun _ _ => ⟨rfl, rfl⟩) (by decide),
   by decide⟩

/-- C4: for every input string of at most `WIDTH` characters, all of
them with code points below 256, `write` on a non-failing backend
succeeds and its invocation log is exactly one data event per character
of the string, carrying the character's own code point, in order — no
truncation and no commands. -/
theorem write_short_latin1_exact {σ ε : Type} (B : Backend σ ε) (W : Nat) (s : σ)
    (str : List Char) (hB : NonFailing B) (hlen : str.length ≤ W)
    (hlat : ∀ c ∈ str, c.toNat < 256) :
    (write (traced B) W (s, []) str).2 = Except.ok () ∧
    (write (traced B) W (s, []) str).1.2 = str.map (fun c => Event.data c.toNat) := by
  have hline : lineBytes W str = str.map (fun c => c.toNat) := by
    rw [lineBytes, List.take_of_length_le hlen]
    apply List.map_congr_left
    intro c hc
    simp [hlat c hc]
  rw [write_eq_send_data_bytes, send_data_bytes_traced_ok B hB (lineBytes W str) s [], hline]
  constructor
  · rfl
  · simp [List.map_map]

theorem write_short_latin1_exact_witness :
    NonFailing okBackend ∧ ("hello".toList).length ≤ 16 ∧
    (∀ c ∈ "hello".toList, c.toNat < 256) ∧
    ((write (traced okBackend) 16 ((), []) "hello".toList).2 = Except.ok () ∧
     (write (traced okBackend) 16 ((), []) "hello".toList).1.2 =
       "hello".toList.map (fun c => Event.data c.toNat)) ∧
    write (traced okBackend) 16 ((), []) [] = (((), []), Except.ok ()) :=
  ⟨fun _ _ => ⟨rfl, rfl⟩, by decide, by decide,
   write_short_latin1_exact okBackend 16 () "hello".toList (fun _ _ => ⟨rfl, rfl⟩)
     (by decide) (by decide),
   rfl⟩

/-- C9: the buffer-filling fold of `write` always stays in bounds: the
final index (the number of buffered bytes) is at most `WIDTH`, the
instrumented fold confirms that every indexed store happened at an index
strictly below the buffer length `WIDTH`, and the number of bytes handed
to `send_data_bytes` is at most `WIDTH`. -/
theorem write_buffer_stores_in_bounds (W : Nat) (str : List Char) :
    ((((str.take W).map (fun c => if c.toNat < 256 then c else '?')).foldl
        writeStep (List.replicate W 0, 0)).2 ≤ W) ∧
    ((((str.take W).map (fun c => if c.toNat < 256 then c else '?')).foldl
        writeStepChecked ((List.replicate W 0, 0), true)).2 = true) ∧
    (lineBytes W str).length ≤ W := by
  have hroom : 0 + ((str.take W).map (fun c => if c.toNat < 256 then c else '?')).length
      ≤ (List.replicate W 0 : List Nat).length := by
    simp [List.length_take]
  refine ⟨?_, foldl_writeStepChecked_ok _ _ _ hroom, ?_⟩
  · rw [foldl_writeStep_eq _ _ _ hroom]
    simp [List.length_take]
  · simp [lineBytes, List.length_take]

/-- C2: for every batched send (`send_commands`, `send_data_bytes`, and
the batched send inside `write`), if the backend primitive fails on the
k-th byte, then the bytes before it have already been sent through the
primitive, the bytes after it are never attempted (the invocation log
stops exactly at the failing byte), and the operation returns that
backend error value unmodified. -/
theorem batched_send_error_short_circuit {σ ε : Type} (B : Backend σ ε) :
    (∀ (s s1 s2 : σ) (pre post : List Nat) (b : Nat) (e : ε),
      send_commands B s pre = (s1, Except.ok ()) →
      B.send_command s1 b = (s2, Except.error e) →
      send_commands (traced B) (s, []) (pre ++ b :: post) =
        ((s2, (pre ++ [b]).map Event.command), Except.error e)) ∧
    (∀ (s s1 s2 : σ) (pre post : List Nat) (b : Nat) (e : ε),
      send_data_bytes B s pre = (s1, Except.ok ()) →
      B.send_data s1 b = (s2, Except.error e) →
      send_data_bytes (traced B) (s, []) (pre ++ b :: post) =
        ((s2, (pre ++ [b]).map Event.data), Except.error e)) ∧
    (∀ (s s1 s2 : σ) (W : Nat) (str : List Char) (pre post : List Nat) (b : Nat) (e : ε),
      lineBytes W str = pre ++ b :: post →
      send_data_bytes B s pre = (s1, Except.ok ()) →
      B.send_data s1 b = (s2, Except.error e) →
      write (traced B) W (s, []) str =
        ((s2, (pre ++ [b]).map Event.data), Except.error e)) := by
  refine ⟨?_, ?_, ?_⟩
  · intro s s1 s2 pre post b e h1 h2
    rw [send_commands_traced_front B pre s s1 h1 [] (b :: post)]
    rw [send_commands_traced_fail_step B s1 s2 b e h2]
    simp
  · intro s s1 s2 pre post b e h1 h2
    rw [send_data_bytes_traced_front B pre s s1 h1 [] (b :: post)]
    rw [send_data_bytes_traced_fail_step B s1 s2 b e h2]
    simp
  · intro s s1 s2 W str pre post b e hsplit h1 h2
    rw [write_eq_send_data_bytes, hsplit]
    rw [send_data_bytes_traced_front B pre s s1 h1 [] (b :: post)]
    rw [send_data_bytes_traced_fail_step B s1 s2 b e h2]
    simp

theorem batched_send_error_short_circuit_witness :
    (send_commands failBackend () [1, 2] = ((), Except.ok ()) ∧
     failBackend.send_command () 7 = ((), Except.error ()) ∧
     send_commands (traced failBackend) ((), []) ([1, 2] ++ 7 :: [9]) =
       (((), ([1, 2] ++ [7]).map Event.command), Except.error ())) ∧
    (send_data_bytes failBackend () [97] = ((), Except.ok ()) ∧
     failBackend.send_data () 120 = ((), Except.error ()) ∧
     send_data_bytes (traced failBackend) ((), []) ([97] ++ 120 :: []) =
       (((), ([97] ++ [120]).map Event.data), Except.error ())) ∧
    (lineBytes 16 ['a', 'x'] = [97] ++ 120 :: [] ∧
     write (traced failBackend) 16 ((), []) ['a', 'x'] =
       (((), ([97] ++ [120]).map Event.data), Except.error ())) :=
  ⟨⟨rfl, rfl,
    (batched_send_error_short_circuit failBackend).1 () () () [1, 2] [9] 7 () rfl rfl⟩,
   ⟨rfl, rfl,
    (batched_send_error_short_circuit failBackend).2.1 () () () [97] [] 120 () rfl rfl⟩,
   ⟨by decide,
    (batched_send_error_short_circuit failBackend).2.2 () () () 16 ['a', 'x'] [97] [] 120 ()
      (by decide) rfl rfl⟩⟩

end ErustLcd
